import Mathlib

/-!
Verification of the theme-resolution, image-validation and caching core of
`scripts/download_sets.py` (trmnl-lego-plugin).

The Python script is embedded shallowly:

* Python scalar values occurring in parsed CSV rows are `PyVal`
  (string / int / `None`); a dataset row is the structure `Row`, whose
  `Option` fields model possibly-absent dictionary keys.
* Python `dict`s keyed by hashables are association lists with
  insert-or-overwrite semantics (`alookup` / `ainsert`), preserving the
  insertion order that `dict` guarantees.
* The network (an `aiohttp` session) is an oracle
  `Net : String → Nat → ProbeResult` mapping a URL and the per-probe
  timeout bound to the outcome of a `HEAD` probe: a status code, a
  connection error, or a timeout.  Within one run the oracle is a fixed
  function, i.e. probing the same URL twice observes the same outcome.
* `check_image` and the row loop of `filter_valid_images_async` are
  translated directly; the sequential function threads the cache through
  the per-row checks in input order (one admissible schedule of the
  asyncio program).  The concurrent behaviour of
  `filter_valid_images_async` — many outstanding probes gated by
  `aiohttp.TCPConnector(limit=concurrency)` — is additionally modelled as
  the small-step transition system `Step`, in which a task acquires a
  connection only while fewer than `limit` probes are outstanding.
-/

namespace DownloadSets

/-- Python scalar values occurring in parsed CSV rows after the numeric
coercion in `extract_and_convert`: strings, ints, and `None`. -/
inductive PyVal where
  | str (s : String)
  | int (n : Int)
  | null
deriving DecidableEq

/-- Python truthiness of a `PyVal` (`""`, `0` and `None` are falsy). -/
def PyVal.truthy : PyVal → Bool
  | .str s => s ≠ ""
  | .int n => n ≠ 0
  | .null => false

/-- A dataset row (sets or minifigs), as the dictionary produced by
`csv.DictReader` plus the fields later attached by `add_theme_names`.
`none` models an absent key.  String-valued CSV columns
(`set_num`, `fig_num`, `name`, `img_url`) hold strings; the numerically
coerced columns (`year`, `num_parts`, `theme_id`) and the attached
`theme` / `parent_theme` fields hold arbitrary `PyVal`s. -/
structure Row where
  set_num : Option String := none
  fig_num : Option String := none
  name : Option String := none
  year : Option PyVal := none
  num_parts : Option PyVal := none
  img_url : Option String := none
  theme_id : Option PyVal := none
  theme : Option PyVal := none
  parent_theme : Option PyVal := none
deriving DecidableEq

/-- Lookup in a Python-`dict`-like association list (first, hence unique,
binding of the key). -/
def alookup {α β : Type} [DecidableEq α] : List (α × β) → α → Option β
  | [], _ => none
  | (k, v) :: rest, k' => if k = k' then some v else alookup rest k'

/-- `d[k] = v` on a Python-`dict`-like association list: overwrite the
existing binding in place, or append a new one. -/
def ainsert {α β : Type} [DecidableEq α] : List (α × β) → α → β → List (α × β)
  | [], k, v => [(k, v)]
  | (k', v') :: rest, k, v =>
    if k' = k then (k, v) :: rest else (k', v') :: ainsert rest k v

/-- The persistent image cache: the `dict` mapping an image URL to its
reachability verdict. -/
abbrev Cache : Type := List (String × Bool)

/-- Outcome of one `session.head(url, timeout=5)` probe: an HTTP status
code, or one of the exceptions swallowed by `check_image`'s blanket
`except` (connection failure / timeout after the bound). -/
inductive ProbeResult where
  | status (code : Nat)
  | connError
  | timeout
deriving DecidableEq

/-- The network oracle standing for the `aiohttp` session: URL and
per-probe timeout bound in, probe outcome out. -/
def Net : Type := String → Nat → ProbeResult

/-- The per-probe timeout bound passed to `session.head` (`timeout=5`). -/
def checkTimeout : Nat := 5

/-- The verdict `check_image` derives from a probe outcome:
`resp.status == 200` for a response, `False` for a swallowed exception. -/
def verdictOf : ProbeResult → Bool
  | .status code => code == 200
  | .connError => false
  | .timeout => false

/-- `url = row.get("img_url") or ""`: the row's image URL, with both an
absent key and an empty value collapsing to `""`. -/
def urlOf (row : Row) : String := row.img_url.getD ""

/-- Result of one `check_image` call: the returned value (`row` or
`None`), the cache after the call, and whether a network probe was
issued. -/
structure CheckResult where
  result : Option Row
  cache : Cache
  probed : Bool
deriving DecidableEq

/-- `check_image(session, row, cache)`: skip rows without an image URL,
serve cached verdicts without probing, otherwise probe and record the
observed verdict (`status == 200`, exceptions recorded as `False`). -/
def check_image (session : Net) (row : Row) (cache : Cache) : CheckResult :=
  let url := urlOf row
  if url = "" then ⟨none, cache, false⟩
  else
    match alookup cache url with
    | some b => ⟨if b then some row else none, cache, false⟩
    | none =>
      match session url checkTimeout with
      | .status code =>
        let valid := code == 200
        ⟨if valid then some row else none, ainsert cache url valid, true⟩
      | .connError => ⟨none, ainsert cache url false, true⟩
      | .timeout => ⟨none, ainsert cache url false, true⟩

/-- Result of a `filter_valid_images_async` run: the surviving rows, the
cache after the run, and the number of network probes issued. -/
structure FilterResult where
  valid : List Row
  cache : Cache
  probes : Nat
deriving DecidableEq

/-- The row loop of `filter_valid_images_async(data, cache)`: every row
goes through `check_image` against the shared cache and the rows whose
check returned a row are collected.  This sequential function fixes one
admissible schedule (rows checked in input order); the interleaved
schedules are modelled separately by `Step`. -/
def filter_valid_images_async (session : Net) : List Row → Cache → FilterResult
  | [], cache => ⟨[], cache, 0⟩
  | row :: rest, cache =>
    let c := check_image session row cache
    let r := filter_valid_images_async session rest c.cache
    ⟨match c.result with
      | some row' => row' :: r.valid
      | none => r.valid,
     r.cache,
     (if c.probed then 1 else 0) + r.probes⟩

/-- C1: the validator's per-record decision: a record with no image
reference (absent or empty `img_url`) is excluded without a probe and
without touching the cache, and drops out of the run's output; a record
whose (non-empty) URL is already a cache key issues no probe and is
included in the output exactly when the cached verdict is `true` — in
particular a URL pre-seeded as `false` excludes the record without any
network call. -/
theorem check_image_per_record_decision (session : Net) (row : Row) (rest : List Row)
    (cache : Cache) :
    (urlOf row = "" →
      check_image session row cache = ⟨none, cache, false⟩ ∧
      filter_valid_images_async session (row :: rest) cache =
        filter_valid_images_async session rest cache) ∧
    (∀ b : Bool, urlOf row ≠ "" → alookup cache (urlOf row) = some b →
      check_image session row cache = ⟨if b then some row else none, cache, false⟩ ∧
      filter_valid_images_async session (row :: rest) cache =
        ⟨if b then row :: (filter_valid_images_async session rest cache).valid
          else (filter_valid_images_async session rest cache).valid,
         (filter_valid_images_async session rest cache).cache,
         (filter_valid_images_async session rest cache).probes⟩) := by
  constructor
  · intro h
    have hc : check_image session row cache = ⟨none, cache, false⟩ := by
      simp [check_image, h]
    refine ⟨hc, ?_⟩
    simp [filter_valid_images_async, hc]
  · intro b hurl hb
    have hc : check_image session row cache = ⟨if b then some row else none, cache, false⟩ := by
      simp [check_image, hurl, hb]
    refine ⟨hc, ?_⟩
    cases b <;> simp [filter_valid_images_async, hc]

/-- Witness for C1: a record whose URL `"u"` is pre-seeded in the cache
as `false` is excluded without a network call and the cache is
untouched. -/
theorem check_image_per_record_decision_witness :
    check_image (fun _ _ => ProbeResult.status 200) { img_url := some "u" }
        [("u", false)] = ⟨none, [("u", false)], false⟩ := by
  have h := (check_image_per_record_decision (fun _ _ => ProbeResult.status 200)
    { img_url := some "u" } [] [("u", false)]).2 false (by decide) (by decide)
  simpa using h.1

/-- C10: for a record with a non-empty, uncached URL, a probe that gets
an HTTP response records the verdict `status == 200` and the record is
returned exactly when the status is `200` — any other status, success
statuses such as `204` included, records `false` and excludes the
record. -/
theorem check_image_requires_status_200 (session : Net) (row : Row) (cache : Cache)
    (code : Nat) (hurl : urlOf row ≠ "") (hmiss : alookup cache (urlOf row) = none)
    (hnet : session (urlOf row) checkTimeout = .status code) :
    check_image session row cache =
      ⟨if code == 200 then some row else none,
       ainsert cache (urlOf row) (code == 200), true⟩ := by
  simp [check_image, hurl, hmiss, hnet]

/-- Witness for C10: a `204 No Content` response on uncached URL `"u"`
records `false` and excludes the record. -/
theorem check_image_requires_status_200_witness :
    check_image (fun _ _ => ProbeResult.status 204) { img_url := some "u" } [] =
      ⟨none, [("u", false)], true⟩ := by
  have h := check_image_requires_status_200 (fun _ _ => ProbeResult.status 204)
    { img_url := some "u" } [] 204 (by decide) (by decide) rfl
  simpa using h

/-- `check_image` on a cache miss with non-empty URL: probe, record the
observed verdict, return the row exactly when the verdict is `true`. -/
theorem check_image_miss (session : Net) (row : Row) (cache : Cache)
    (hurl : urlOf row ≠ "") (hmiss : alookup cache (urlOf row) = none) :
    check_image session row cache =
      ⟨if verdictOf (session (urlOf row) checkTimeout) then some row else none,
       ainsert cache (urlOf row) (verdictOf (session (urlOf row) checkTimeout)), true⟩ := by
  cases hnet : session (urlOf row) checkTimeout <;>
    simp [check_image, hurl, hmiss, hnet, verdictOf]

/-- C4: a probe that fails — connection error, timeout after the
default bound of `5` units, or a non-success (non-`200`) status — is
handled inside that record's check: the cache records `false` for the
URL, the record is excluded, and the run continues over the remaining
records (one probe is counted and the rest of the rows are processed
normally) instead of aborting. -/
theorem check_image_probe_failure_isolated (session : Net) (row : Row) (rest : List Row)
    (cache : Cache) (hurl : urlOf row ≠ "") (hmiss : alookup cache (urlOf row) = none)
    (hfail : session (urlOf row) checkTimeout = .connError ∨
      session (urlOf row) checkTimeout = .timeout ∨
      ∃ code, session (urlOf row) checkTimeout = .status code ∧ code ≠ 200) :
    check_image session row cache = ⟨none, ainsert cache (urlOf row) false, true⟩ ∧
    filter_valid_images_async session (row :: rest) cache =
      ⟨(filter_valid_images_async session rest (ainsert cache (urlOf row) false)).valid,
       (filter_valid_images_async session rest (ainsert cache (urlOf row) false)).cache,
       1 + (filter_valid_images_async session rest
              (ainsert cache (urlOf row) false)).probes⟩ := by
  have hv : verdictOf (session (urlOf row) checkTimeout) = false := by
    rcases hfail with h | h | ⟨code, h, hne⟩
    · rw [h]; rfl
    · rw [h]; rfl
    · rw [h]
      simp only [verdictOf, beq_eq_false_iff_ne, ne_eq]
      exact hne
  have hc : check_image session row cache = ⟨none, ainsert cache (urlOf row) false, true⟩ := by
    have h := check_image_miss session row cache hurl hmiss
    rw [hv] at h
    simpa using h
  exact ⟨hc, by simp [filter_valid_images_async, hc]⟩

/-- Witness for C4: a `404 Not Found` probe of uncached URL `"u"`
records `false`, excludes the record, and the (here empty) remainder of
the run still completes with exactly that one probe counted. -/
theorem check_image_probe_failure_isolated_witness :
    check_image (fun _ _ => ProbeResult.status 404) { img_url := some "u" } [] =
      ⟨none, [("u", false)], true⟩ ∧
    filter_valid_images_async (fun _ _ => ProbeResult.status 404)
        [{ img_url := some "u" }] [] = ⟨[], [("u", false)], 1⟩ := by
  have h := check_image_probe_failure_isolated (fun _ _ => ProbeResult.status 404)
    { img_url := some "u" } [] [] (by decide) (by decide)
    (Or.inr (Or.inr ⟨404, rfl, by decide⟩))
  exact ⟨by simpa using h.1, by simpa using h.2⟩

theorem alookup_ainsert_self {α β : Type} [DecidableEq α] (c : List (α × β)) (k : α) (v : β) :
    alookup (ainsert c k v) k = some v := by
  induction c with
  | nil => simp [ainsert, alookup]
  | cons kv rest ih =>
    by_cases h : kv.1 = k
    · simp [ainsert, h, alookup]
    · simp [ainsert, h, alookup, ih]

theorem alookup_ainsert_ne {α β : Type} [DecidableEq α] (c : List (α × β)) {k k' : α}
    (h : k ≠ k') (v : β) : alookup (ainsert c k v) k' = alookup c k' := by
  induction c with
  | nil => simp [ainsert, alookup, h]
  | cons kv rest ih =>
    obtain ⟨k₀, v₀⟩ := kv
    by_cases hk : k₀ = k
    · subst hk
      simp [ainsert, alookup, h]
    · simp [ainsert, hk, alookup, ih]

/-- One cache extends another: every recorded verdict is preserved. -/
def cacheLe (c c' : Cache) : Prop :=
  ∀ u b, alookup c u = some b → alookup c' u = some b

theorem cacheLe_refl (c : Cache) : cacheLe c c := fun _ _ h => h

theorem cacheLe_trans {a b c : Cache} (h1 : cacheLe a b) (h2 : cacheLe b c) :
    cacheLe a c := fun u v h => h2 u v (h1 u v h)

theorem cacheLe_ainsert_of_miss {c : Cache} {k : String} (h : alookup c k = none) (v : Bool) :
    cacheLe c (ainsert c k v) := by
  intro u b hb
  rcases eq_or_ne k u with rfl | hne
  · rw [h] at hb; cases hb
  · rw [alookup_ainsert_ne c hne v]; exact hb

theorem check_image_cacheLe (session : Net) (row : Row) (cache : Cache) :
    cacheLe cache (check_image session row cache).cache := by
  by_cases hurl : urlOf row = ""
  · simp [check_image, hurl]; exact cacheLe_refl cache
  · cases hmiss : alookup cache (urlOf row) with
    | some b => simp [check_image, hurl, hmiss]; exact cacheLe_refl cache
    | none =>
      rw [check_image_miss session row cache hurl hmiss]
      exact cacheLe_ainsert_of_miss hmiss _

theorem filter_cacheLe (session : Net) :
    ∀ (data : List Row) (cache : Cache),
      cacheLe cache (filter_valid_images_async session data cache).cache := by
  intro data
  induction data with
  | nil => intro cache; exact cacheLe_refl cache
  | cons row rest ih =>
    intro cache
    exact cacheLe_trans (check_image_cacheLe session row cache)
      (ih (check_image session row cache).cache)

theorem filter_cons_cache (session : Net) (row : Row) (rest : List Row) (cache : Cache) :
    (filter_valid_images_async session (row :: rest) cache).cache =
      (filter_valid_images_async session rest (check_image session row cache).cache).cache :=
  rfl

/-- After a run, every non-empty URL occurring in the data has a cached
verdict. -/
theorem filter_covers (session : Net) :
    ∀ (data : List Row) (cache : Cache) (row : Row), row ∈ data → urlOf row ≠ "" →
      ∃ b, alookup (filter_valid_images_async session data cache).cache (urlOf row) = some b := by
  intro data
  induction data with
  | nil => intro _ row h; cases h
  | cons row₀ rest ih =>
    intro cache row hmem hurl
    rcases List.mem_cons.mp hmem with rfl | hmem
    · rw [filter_cons_cache]
      by_cases hmiss : alookup cache (urlOf row) = none
      · refine ⟨verdictOf (session (urlOf row) checkTimeout), ?_⟩
        have h1 : alookup (check_image session row cache).cache (urlOf row) =
            some (verdictOf (session (urlOf row) checkTimeout)) := by
          rw [check_image_miss session row cache hurl hmiss]
          exact alookup_ainsert_self cache _ _
        exact filter_cacheLe session rest (check_image session row cache).cache _ _ h1
      · rcases Option.ne_none_iff_exists'.mp hmiss with ⟨b, hb⟩
        refine ⟨b, ?_⟩
        have h1 : alookup (check_image session row cache).cache (urlOf row) = some b :=
          check_image_cacheLe session row cache _ _ hb
        exact filter_cacheLe session rest (check_image session row cache).cache _ _ h1
    · rw [filter_cons_cache]
      exact ih (check_image session row₀ cache).cache row hmem hurl

/-- The per-row decision a fully populated cache induces: kept exactly
when the URL is non-empty and cached as `true`. -/
def keptBy (c : Cache) (r : Row) : Bool :=
  (urlOf r != "") && (alookup c (urlOf r) == some true)

/-- The rows a run keeps are exactly the rows its final cache marks
`true` (with a non-empty URL). -/
theorem filter_valid_eq_filter (session : Net) :
    ∀ (data : List Row) (cache : Cache),
      (filter_valid_images_async session data cache).valid =
        data.filter (keptBy (filter_valid_images_async session data cache).cache) := by
  intro data
  induction data with
  | nil => intro cache; simp [filter_valid_images_async]
  | cons row rest ih =>
    intro cache
    by_cases hurl : urlOf row = ""
    · have hc : check_image session row cache = ⟨none, cache, false⟩ := by
        simp [check_image, hurl]
      simp [filter_valid_images_async, hc, List.filter_cons, keptBy, hurl, ih cache]
    · cases hcache : alookup cache (urlOf row) with
      | some b =>
        have hc : check_image session row cache = ⟨if b then some row else none, cache, false⟩ := by
          simp [check_image, hurl, hcache]
        have hpers : alookup (filter_valid_images_async session rest cache).cache
            (urlOf row) = some b := filter_cacheLe session rest cache _ _ hcache
        cases b <;>
          simp [filter_valid_images_async, hc, List.filter_cons, keptBy, hurl, hpers, ih cache]
      | none =>
        have hc := check_image_miss session row cache hurl hcache
        have hself : alookup (ainsert cache (urlOf row)
            (verdictOf (session (urlOf row) checkTimeout))) (urlOf row) =
            some (verdictOf (session (urlOf row) checkTimeout)) :=
          alookup_ainsert_self cache _ _
        have hpers : alookup (filter_valid_images_async session rest
            (ainsert cache (urlOf row) (verdictOf (session (urlOf row) checkTimeout)))).cache
            (urlOf row) = some (verdictOf (session (urlOf row) checkTimeout)) :=
          filter_cacheLe session rest _ _ _ hself
        cases hv : verdictOf (session (urlOf row) checkTimeout) <;>
          rw [hv] at hc hpers <;>
          simp [filter_valid_images_async, hc, List.filter_cons, keptBy, hurl, hpers, ih]

/-- A run whose cache already covers every non-empty URL issues no
probes, leaves the cache unchanged, and filters by the cached
verdicts. -/
theorem filter_all_cached (session : Net) :
    ∀ (data : List Row) (cache : Cache),
      (∀ r ∈ data, urlOf r ≠ "" → (alookup cache (urlOf r)).isSome) →
      filter_valid_images_async session data cache =
        ⟨data.filter (keptBy cache), cache, 0⟩ := by
  intro data
  induction data with
  | nil => intro cache _; simp [filter_valid_images_async]
  | cons row rest ih =>
    intro cache hcov
    have hrest := ih cache (fun r hr => hcov r (List.mem_cons_of_mem row hr))
    by_cases hurl : urlOf row = ""
    · have hc : check_image session row cache = ⟨none, cache, false⟩ := by
        simp [check_image, hurl]
      simp [filter_valid_images_async, hc, hrest, List.filter_cons, keptBy, hurl]
    · rcases Option.isSome_iff_exists.mp (hcov row (List.mem_cons_self row rest) hurl)
        with ⟨b, hb⟩
      have hc : check_image session row cache = ⟨if b then some row else none, cache, false⟩ := by
        simp [check_image, hurl, hb]
      cases b <;>
        simp [filter_valid_images_async, hc, hrest, List.filter_cons, keptBy, hurl, hb]

/-- C3: validating the same records a second time against the cache the
first run fully populated issues zero network probes, leaves the cache
unchanged, and returns exactly the first run's valid rows. -/
theorem filter_valid_images_idempotent (session : Net) (data : List Row) (cache : Cache) :
    filter_valid_images_async session data
        (filter_valid_images_async session data cache).cache =
      ⟨(filter_valid_images_async session data cache).valid,
       (filter_valid_images_async session data cache).cache, 0⟩ := by
  have hcov : ∀ r ∈ data, urlOf r ≠ "" →
      (alookup (filter_valid_images_async session data cache).cache (urlOf r)).isSome := by
    intro r hr hurl
    rcases filter_covers session data cache r hr hurl with ⟨b, hb⟩
    simp [hb]
  rw [filter_all_cached session data _ hcov, ← filter_valid_eq_filter session data cache]

/-- The JSON cache file (`img_url_cache.json`): a JSON object is its
ordered list of members, URL keys mapped to boolean verdicts —
`json.dump` writes the dict's items in insertion order. -/
structure JsonFile where
  members : List (String × Bool)
deriving DecidableEq

/-- `save_image_cache(cache)`: `json.dump` serializes the full mapping,
item by item in order, to the cache file. -/
def save_image_cache (cache : Cache) : JsonFile := ⟨cache⟩

/-- `load_image_cache()`: a missing file is an empty cache; otherwise
`json.load` rebuilds the dict by inserting the file's members in
order. -/
def load_image_cache : Option JsonFile → Cache
  | none => []
  | some f => f.members.foldl (fun c kv => ainsert c kv.1 kv.2) []

theorem alookup_append_of_none {α β : Type} [DecidableEq α] {c : List (α × β)} {k : α}
    (h : alookup c k = none) (d : List (α × β)) : alookup (c ++ d) k = alookup d k := by
  induction c with
  | nil => simp
  | cons kv rest ih =>
    obtain ⟨k₀, v₀⟩ := kv
    by_cases hk : k₀ = k
    · simp [alookup, hk] at h
    · simp [alookup, hk] at h ⊢
      exact ih h

theorem ainsert_of_miss {α β : Type} [DecidableEq α] {c : List (α × β)} {k : α}
    (h : alookup c k = none) (v : β) : ainsert c k v = c ++ [(k, v)] := by
  induction c with
  | nil => simp [ainsert]
  | cons kv rest ih =>
    obtain ⟨k₀, v₀⟩ := kv
    by_cases hk : k₀ = k
    · simp [alookup, hk] at h
    · simp [alookup, hk] at h
      simp [ainsert, hk, ih h]

theorem foldl_ainsert_fresh {α β : Type} [DecidableEq α] :
    ∀ (l acc : List (α × β)), (l.map Prod.fst).Nodup →
      (∀ k ∈ l.map Prod.fst, alookup acc k = none) →
      l.foldl (fun c kv => ainsert c kv.1 kv.2) acc = acc ++ l := by
  intro l
  induction l with
  | nil => intro acc _ _; simp
  | cons kv rest ih =>
    intro acc hnd hfresh
    obtain ⟨k, v⟩ := kv
    have hmiss : alookup acc k = none := hfresh k (by simp)
    have hnd' : (k :: rest.map Prod.fst).Nodup := by simpa using hnd
    have hknotin : k ∉ rest.map Prod.fst := (List.nodup_cons.mp hnd').1
    have hstep : ainsert acc k v = acc ++ [(k, v)] := ainsert_of_miss hmiss v
    have hfresh' : ∀ k' ∈ rest.map Prod.fst, alookup (acc ++ [(k, v)]) k' = none := by
      intro k' hk'
      have hne : k ≠ k' := fun h => hknotin (h ▸ hk')
      rw [alookup_append_of_none (hfresh k' (by simp [hk'])) [(k, v)]]
      simp [alookup, hne]
    calc (rest.foldl (fun c kv => ainsert c kv.1 kv.2) (ainsert acc k v))
        = rest.foldl (fun c kv => ainsert c kv.1 kv.2) (acc ++ [(k, v)]) := by rw [hstep]
      _ = (acc ++ [(k, v)]) ++ rest := ih (acc ++ [(k, v)])
            (List.nodup_cons.mp hnd').2 hfresh'
      _ = acc ++ ((k, v) :: rest) := by simp

/-- C7: saving a cache (a mapping with duplicate-free URL keys, as every
Python `dict` is) to the cache file and loading it back reproduces an
equal mapping. -/
theorem cache_save_load_round_trip (cache : Cache)
    (hnodup : (cache.map Prod.fst).Nodup) :
    load_image_cache (some (save_image_cache cache)) = cache := by
  have h := foldl_ainsert_fresh cache [] hnodup (by intro k _; rfl)
  simpa [load_image_cache, save_image_cache] using h

/-- Witness for C7: a concrete two-entry cache survives the save/load
round trip unchanged. -/
theorem cache_save_load_round_trip_witness :
    load_image_cache (some (save_image_cache [("a", true), ("b", false)])) =
      [("a", true), ("b", false)] :=
  cache_save_load_round_trip [("a", true), ("b", false)] (by decide)

/-- A parsed theme record: `id` as left by the numeric coercion (`int`
or `None`), the optional `name` column, and `parent_id` (`.null` when
the key is absent or the value is `None`). -/
structure ThemeRec where
  id : PyVal
  name : Option String := none
  parent_id : PyVal := .null
deriving DecidableEq

/-- `row.get(k)` on an optional `PyVal` field: an absent key reads as
`None`. -/
def pyGet (o : Option PyVal) : PyVal := o.getD .null

/-- A Python value that is either a string or `None`, as produced by
`dict.get` on a str-valued mapping. -/
def optStr : Option String → PyVal
  | some s => .str s
  | none => .null

/-- `themes_lookup = {t["id"]: t.get("name", "") for t in themes_data}`. -/
def themes_lookup_of (ts : List ThemeRec) : List (PyVal × String) :=
  ts.foldl (fun m t => ainsert m t.id (t.name.getD "")) []

/-- `parent_lookup = {t["id"]: themes_lookup.get(t.get("parent_id"))
for t in themes_data if t.get("parent_id")}`. -/
def parent_lookup_of (ts : List ThemeRec) (tl : List (PyVal × String)) :
    List (PyVal × Option String) :=
  ts.foldl (fun m t =>
    if t.parent_id.truthy then ainsert m t.id (alookup tl t.parent_id) else m) []

/-- The body of `add_theme_names`' loop for one item: attach
`theme`/`parent_theme`, looking both up by `theme_id` when it is an
int and using `""` otherwise. -/
def add_theme_names_item (tl : List (PyVal × String)) (pl : List (PyVal × Option String))
    (item : Row) : Row :=
  match pyGet item.theme_id with
  | .int i =>
    { item with
      theme := some (optStr (alookup tl (.int i))),
      parent_theme := some (optStr ((alookup pl (.int i)).join)) }
  | _ => { item with theme := some (.str ""), parent_theme := some (.str "") }

/-- `add_theme_names(data, themes_lookup, parent_lookup)`. -/
def add_theme_names (data : List Row) (tl : List (PyVal × String))
    (pl : List (PyVal × Option String)) : List Row :=
  data.map (add_theme_names_item tl pl)

theorem themes_lookup_of_skip (k : PyVal) :
    ∀ (ts : List ThemeRec) (m : List (PyVal × String)), (∀ t ∈ ts, t.id ≠ k) →
      alookup (ts.foldl (fun m t => ainsert m t.id (t.name.getD "")) m) k = alookup m k := by
  intro ts
  induction ts with
  | nil => intro m _; rfl
  | cons t rest ih =>
    intro m hne
    have h1 := ih (ainsert m t.id (t.name.getD "")) (fun u hu => hne u (by simp [hu]))
    rw [List.foldl_cons, h1, alookup_ainsert_ne m (hne t (by simp)) _]

theorem themes_lookup_of_mem :
    ∀ (ts : List ThemeRec) (m : List (PyVal × String)) (t : ThemeRec),
      (ts.map ThemeRec.id).Nodup → t ∈ ts →
      alookup (ts.foldl (fun m t => ainsert m t.id (t.name.getD "")) m) t.id =
        some (t.name.getD "") := by
  intro ts
  induction ts with
  | nil => intro _ t _ h; cases h
  | cons t₀ rest ih =>
    intro m t hnd hmem
    have hnd' : (t₀.id :: rest.map ThemeRec.id).Nodup := by simpa using hnd
    rcases List.mem_cons.mp hmem with rfl | hmem
    · have hnotin : ∀ u ∈ rest, u.id ≠ t.id := by
        intro u hu he
        exact (List.nodup_cons.mp hnd').1 (he ▸ List.mem_map_of_mem ThemeRec.id hu)
      rw [List.foldl_cons, themes_lookup_of_skip t.id rest _ hnotin,
        alookup_ainsert_self]
    · exact List.foldl_cons _ _ ▸ ih _ t (List.nodup_cons.mp hnd').2 hmem

theorem parent_lookup_of_skip (tl : List (PyVal × String)) (k : PyVal) :
    ∀ (ts : List ThemeRec) (m : List (PyVal × Option String)),
      (∀ t ∈ ts, t.parent_id.truthy → t.id ≠ k) →
      alookup (ts.foldl (fun m t =>
        if t.parent_id.truthy then ainsert m t.id (alookup tl t.parent_id) else m) m) k =
        alookup m k := by
  intro ts
  induction ts with
  | nil => intro m _; rfl
  | cons t rest ih =>
    intro m hne
    rw [List.foldl_cons, ih _ (fun u hu => hne u (by simp [hu]))]
    by_cases htr : t.parent_id.truthy
    · rw [if_pos htr, alookup_ainsert_ne m (hne t (by simp) htr) _]
    · rw [if_neg htr]

theorem parent_lookup_of_mem (tl : List (PyVal × String)) :
    ∀ (ts : List ThemeRec) (m : List (PyVal × Option String)) (t : ThemeRec),
      (ts.map ThemeRec.id).Nodup → t ∈ ts → t.parent_id.truthy →
      alookup (ts.foldl (fun m t =>
        if t.parent_id.truthy then ainsert m t.id (alookup tl t.parent_id) else m) m) t.id =
        some (alookup tl t.parent_id) := by
  intro ts
  induction ts with
  | nil => intro _ t _ h; cases h
  | cons t₀ rest ih =>
    intro m t hnd hmem htr
    have hnd' : (t₀.id :: rest.map ThemeRec.id).Nodup := by simpa using hnd
    rcases List.mem_cons.mp hmem with rfl | hmem
    · have hnotin : ∀ u ∈ rest, u.parent_id.truthy → u.id ≠ t.id := by
        intro u hu _ he
        exact (List.nodup_cons.mp hnd').1 (he ▸ List.mem_map_of_mem ThemeRec.id hu)
      rw [List.foldl_cons, parent_lookup_of_skip tl t.id rest _ hnotin, if_pos htr,
        alookup_ainsert_self]
    · exact List.foldl_cons _ _ ▸ ih _ t (List.nodup_cons.mp hnd').2 hmem htr

theorem parent_lookup_of_no_parent (tl : List (PyVal × String)) (ts : List ThemeRec)
    (t : ThemeRec) (hnd : (ts.map ThemeRec.id).Nodup) (hmem : t ∈ ts)
    (htr : t.parent_id.truthy = false) :
    alookup (parent_lookup_of ts tl) t.id = none := by
  have hne : ∀ u ∈ ts, u.parent_id.truthy → u.id ≠ t.id := by
    intro u hu hutr he
    have : u = t := List.inj_on_of_nodup_map hnd hu hmem he
    rw [this, htr] at hutr
    cases hutr
  rw [parent_lookup_of, parent_lookup_of_skip tl t.id ts [] hne]
  rfl

/-- C2: enrichment on a record whose `theme_id` is the int `i` sets
`theme` to the exact registered name of the theme with id `i` when one
is registered, and to the `None` sentinel when no theme has id `i`; it
sets `parent_theme` (one traversal hop) to the registered name of the
theme's `parent_id` when the theme has a truthy `parent_id`, and to the
`None` sentinel when it has none (or when no theme has id `i`). -/
theorem add_theme_names_resolves (ts : List ThemeRec) (item : Row) (i : Int)
    (hnd : (ts.map ThemeRec.id).Nodup) (htid : pyGet item.theme_id = .int i) :
    (∀ t ∈ ts, t.id = .int i →
      (add_theme_names_item (themes_lookup_of ts)
          (parent_lookup_of ts (themes_lookup_of ts)) item).theme =
        some (.str (t.name.getD "")) ∧
      (∀ p ∈ ts, t.parent_id.truthy = true → p.id = t.parent_id →
        (add_theme_names_item (themes_lookup_of ts)
            (parent_lookup_of ts (themes_lookup_of ts)) item).parent_theme =
          some (.str (p.name.getD ""))) ∧
      (t.parent_id.truthy = false →
        (add_theme_names_item (themes_lookup_of ts)
            (parent_lookup_of ts (themes_lookup_of ts)) item).parent_theme =
          some PyVal.null)) ∧
    ((∀ t ∈ ts, t.id ≠ .int i) →
      (add_theme_names_item (themes_lookup_of ts)
          (parent_lookup_of ts (themes_lookup_of ts)) item).theme = some PyVal.null ∧
      (add_theme_names_item (themes_lookup_of ts)
          (parent_lookup_of ts (themes_lookup_of ts)) item).parent_theme =
        some PyVal.null) := by
  constructor
  · intro t hmem hid
    have htheme : alookup (themes_lookup_of ts) (.int i) = some (t.name.getD "") :=
      hid ▸ themes_lookup_of_mem ts [] t hnd hmem
    refine ⟨by simp [add_theme_names_item, htid, htheme, optStr], ?_, ?_⟩
    · intro p hp htr hpid
      have hpar : alookup (parent_lookup_of ts (themes_lookup_of ts)) (.int i) =
          some (alookup (themes_lookup_of ts) t.parent_id) :=
        hid ▸ parent_lookup_of_mem (themes_lookup_of ts) ts [] t hnd hmem htr
      have hpname : alookup (themes_lookup_of ts) t.parent_id = some (p.name.getD "") :=
        hpid ▸ themes_lookup_of_mem ts [] p hnd hp
      simp [add_theme_names_item, htid, hpar, hpname, optStr]
    · intro htr
      have hpar : alookup (parent_lookup_of ts (themes_lookup_of ts)) (.int i) = none :=
        hid ▸ parent_lookup_of_no_parent (themes_lookup_of ts) ts t hnd hmem htr
      simp [add_theme_names_item, htid, hpar, optStr]
  · intro hne
    have htheme : alookup (themes_lookup_of ts) (.int i) = none := by
      rw [themes_lookup_of, themes_lookup_of_skip (.int i) ts [] hne]
      rfl
    have hpar : alookup (parent_lookup_of ts (themes_lookup_of ts)) (.int i) = none := by
      rw [parent_lookup_of,
        parent_lookup_of_skip (themes_lookup_of ts) (.int i) ts [] (fun t ht _ => hne t ht)]
      rfl
    exact ⟨by simp [add_theme_names_item, htid, htheme, optStr],
      by simp [add_theme_names_item, htid, hpar, optStr]⟩

/-- Witness for C2 (the spec's scenario): with themes
`{id: 1, name: "Technic"}` and `{id: 2, name: "Technic Model",
parent_id: 1}`, a record with `theme_id = 2` is enriched to
`theme = "Technic Model"`, `parent_theme = "Technic"`. -/
theorem add_theme_names_resolves_witness :
    (add_theme_names_item
        (themes_lookup_of [⟨.int 1, some "Technic", .null⟩,
          ⟨.int 2, some "Technic Model", .int 1⟩])
        (parent_lookup_of [⟨.int 1, some "Technic", .null⟩,
          ⟨.int 2, some "Technic Model", .int 1⟩]
          (themes_lookup_of [⟨.int 1, some "Technic", .null⟩,
            ⟨.int 2, some "Technic Model", .int 1⟩]))
        { theme_id := some (.int 2) }).theme = some (.str "Technic Model") ∧
    (add_theme_names_item
        (themes_lookup_of [⟨.int 1, some "Technic", .null⟩,
          ⟨.int 2, some "Technic Model", .int 1⟩])
        (parent_lookup_of [⟨.int 1, some "Technic", .null⟩,
          ⟨.int 2, some "Technic Model", .int 1⟩]
          (themes_lookup_of [⟨.int 1, some "Technic", .null⟩,
            ⟨.int 2, some "Technic Model", .int 1⟩]))
        { theme_id := some (.int 2) }).parent_theme = some (.str "Technic") := by
  have h := (add_theme_names_resolves
    [⟨.int 1, some "Technic", .null⟩, ⟨.int 2, some "Technic Model", .int 1⟩]
    { theme_id := some (.int 2) } 2 (by decide) rfl).1
    ⟨.int 2, some "Technic Model", .int 1⟩ (by decide) rfl
  exact ⟨h.1, h.2.1 ⟨.int 1, some "Technic", .null⟩ (by decide) (by decide) (by decide)⟩

/-- `FIELDS_ORDER`: the fixed TXT/JSON output field order. -/
def FIELDS_ORDER : List String :=
  ["set_num", "name", "year", "num_parts", "image", "theme", "parent_theme"]

/-- The Python `a or d` chain on optional string fields: an absent key
or empty string falls through to the default. -/
def pyOrStr : Option String → String → String
  | some s, d => if s = "" then d else s
  | none, d => d

/-- The normalization of one row in `main` (the `normalized_row` dict,
in insertion order): identifier from `set_num` or `fig_num`, every other
field defaulted to `""` when absent. -/
def normalize_row (row : Row) : List (String × PyVal) :=
  [("set_num", .str (pyOrStr row.set_num (pyOrStr row.fig_num ""))),
   ("name", .str (row.name.getD "")),
   ("year", row.year.getD (.str "")),
   ("num_parts", row.num_parts.getD (.str "")),
   ("image", .str (row.img_url.getD "")),
   ("theme", row.theme.getD (.str "")),
   ("parent_theme", row.parent_theme.getD (.str ""))]

/-- C8: every normalized record has exactly the fixed field set in the
fixed output order `set_num, name, year, num_parts, image, theme,
parent_theme`, every field present with an explicit (possibly empty)
value regardless of which optional source fields existed; the identifier
field holds the set number when one is present (non-empty), else the
figure number when present, else the explicit empty value. -/
theorem normalize_row_shape (row : Row) :
    (normalize_row row).map Prod.fst = FIELDS_ORDER ∧
    (∀ k ∈ FIELDS_ORDER, (alookup (normalize_row row) k).isSome) ∧
    (∀ s : String, row.set_num = some s → s ≠ "" →
      alookup (normalize_row row) "set_num" = some (.str s)) ∧
    (∀ f : String, (row.set_num = none ∨ row.set_num = some "") → row.fig_num = some f →
      f ≠ "" → alookup (normalize_row row) "set_num" = some (.str f)) ∧
    ((row.set_num = none ∨ row.set_num = some "") →
      (row.fig_num = none ∨ row.fig_num = some "") →
      alookup (normalize_row row) "set_num" = some (.str "")) := by
  refine ⟨rfl, ?_, ?_, ?_, ?_⟩
  · intro k hk
    simp only [FIELDS_ORDER, List.mem_cons, List.not_mem_nil, or_false] at hk
    rcases hk with rfl | rfl | rfl | rfl | rfl | rfl | rfl <;> simp [normalize_row, alookup]
  · intro s hs hne
    simp [normalize_row, alookup, pyOrStr, hs, hne]
  · intro f hsn hf hne
    rcases hsn with hsn | hsn <;> simp [normalize_row, alookup, pyOrStr, hsn, hf, hne]
  · intro hsn hfn
    rcases hsn with hsn | hsn <;> rcases hfn with hfn | hfn <;>
      simp [normalize_row, alookup, pyOrStr, hsn, hfn]

/-- Witness for C8: a minifig-style record carrying only `fig_num` still
normalizes to the full fixed field list, with the figure number as
identifier. -/
theorem normalize_row_shape_witness :
    (normalize_row { fig_num := some "fig-001" }).map Prod.fst = FIELDS_ORDER ∧
    alookup (normalize_row { fig_num := some "fig-001" }) "set_num" =
      some (.str "fig-001") := by
  have h := normalize_row_shape { fig_num := some "fig-001" }
  exact ⟨h.1, h.2.2.2.1 "fig-001" (Or.inl rfl) rfl (by decide)⟩

/-- The on-disk state the pipeline touches: whether the current
dataset's temporary zip file exists, and the contents of the persisted
cache file (`none` = absent). -/
structure RunState where
  tempExists : Bool
  cacheFile : Option JsonFile
deriving DecidableEq

/-- One iteration of `main`'s dataset loop:
`download_zip` creates the temp file; `extract_and_convert` raises
`FileNotFoundError` when the archive has no `.csv` member, in which case
the exception propagates and `cleanup(temp_zip)` is never reached;
otherwise processing continues and the temp file is removed. -/
def process_dataset (dataset_name : String) (zipMembers : List String)
    (st : RunState) : Option String × RunState :=
  let st1 : RunState := { st with tempExists := true }
  if (zipMembers.filter (fun f => f.endsWith ".csv")).isEmpty then
    (some ("No CSV found in ZIP for " ++ dataset_name), st1)
  else
    (none, { st1 with tempExists := false })

/-- `main`'s dataset loop followed by `save_image_cache`: the first
raised exception aborts the whole run (the `except` clause re-raises),
so later datasets are not processed and the cache file is not
rewritten. -/
def main_run (cache : Cache) : List (String × List String) → RunState →
    Option String × RunState
  | [], st => (none, { st with cacheFile := some (save_image_cache cache) })
  | (dsName, zip) :: rest, st =>
    match process_dataset dsName zip st with
    | (some e, st') => (some e, st')
    | (none, st') => main_run cache rest st'

/-- Counterexample to C9 as stated: for an archive with no CSV member,
the run aborts but the temporary zip file is NOT cleaned up —
`cleanup(temp_zip)` only runs after a successful
`extract_and_convert`, and no `finally` block exists. -/
theorem main_run_failure_leaves_temp_file :
    ¬ ((main_run [] [("sets", [])] ⟨false, none⟩).2.tempExists = false) := by
  decide

/-- C9 as amended: when a dataset's archive contains no CSV member, that
dataset's run aborts with the fatal error, no later dataset is
processed, and the persisted cache file is neither rewritten nor
corrupted (it is left exactly as it was); the temporary zip file,
however, is left on disk. -/
theorem main_run_failure_aborts (cache : Cache) (dsName : String) (zip : List String)
    (rest : List (String × List String)) (st : RunState)
    (hnocsv : (zip.filter (fun f => f.endsWith ".csv")).isEmpty = true) :
    main_run cache ((dsName, zip) :: rest) st =
      (some ("No CSV found in ZIP for " ++ dsName),
       { tempExists := true, cacheFile := st.cacheFile }) := by
  simp [main_run, process_dataset, hnocsv]

/-- Witness for the amended C9: a concrete run over an empty archive
aborts with the error, leaves the temp file behind, and does not create
the (initially absent) cache file. -/
theorem main_run_failure_aborts_witness :
    main_run [] [("sets", []), ("minifigs", ["minifigs.csv"])] ⟨false, none⟩ =
      (some "No CSV found in ZIP for sets", ⟨true, none⟩) := by
  have h := main_run_failure_aborts [] "sets" [] [("minifigs", ["minifigs.csv"])]
    ⟨false, none⟩ (by decide)
  simpa using h

/-- Status of one `check_image` task in the interleaved execution of
`filter_valid_images_async`: not yet scheduled; suspended waiting for a
connection from the `TCPConnector`; probe outstanding; finished (with
its inclusion verdict). -/
inductive TStat where
  | pending
  | waiting (u : String)
  | inflight (u : String)
  | done (included : Bool)
deriving DecidableEq

/-- Shared state of one `filter_valid_images_async` call: the per-row
tasks and the shared cache dict. -/
structure SysState where
  tasks : List (Row × TStat)
  cache : Cache
deriving DecidableEq

/-- The synchronous part of one task's first run, up to the point where
`session.head` must acquire a connection: rows without a URL and cached
URLs finish immediately; only a cache miss leaves the task waiting to
probe. -/
def startStat (row : Row) (c : Cache) : TStat :=
  if urlOf row = "" then .done false
  else
    match alookup c (urlOf row) with
    | some b => .done b
    | none => .waiting (urlOf row)

/-- Does this task hold a connection (probe outstanding)? -/
def isProbing : Row × TStat → Bool
  | (_, .inflight _) => true
  | (_, _) => false

/-- Number of simultaneously outstanding probes. -/
def probesOutstanding (tasks : List (Row × TStat)) : Nat := tasks.countP isProbing

/-- Interleaved small-step semantics of one `filter_valid_images_async`
call.  `start` runs a task's synchronous prefix; `acquire` hands a
waiting task a connection — modelled from the spec's concurrency bound:
`aiohttp.TCPConnector(limit=concurrency)` admits a new connection only
while fewer than `limit` are outstanding; `complete` finishes an
outstanding probe with the outcome observed from the network oracle and
records exactly that verdict in the shared cache. -/
inductive Step (session : Net) (limit : Nat) : SysState → SysState → Prop where
  | start (pre post : List (Row × TStat)) (row : Row) (c : Cache) :
      Step session limit ⟨pre ++ (row, .pending) :: post, c⟩
        ⟨pre ++ (row, startStat row c) :: post, c⟩
  | acquire (pre post : List (Row × TStat)) (row : Row) (u : String) (c : Cache) :
      probesOutstanding (pre ++ (row, .waiting u) :: post) < limit →
      Step session limit ⟨pre ++ (row, .waiting u) :: post, c⟩
        ⟨pre ++ (row, .inflight u) :: post, c⟩
  | complete (pre post : List (Row × TStat)) (row : Row) (u : String) (c : Cache) :
      Step session limit ⟨pre ++ (row, .inflight u) :: post, c⟩
        ⟨pre ++ (row, .done (verdictOf (session u checkTimeout))) :: post,
         ainsert c u (verdictOf (session u checkTimeout))⟩

/-- The state `filter_valid_images_async(data, cache)` starts from: all
tasks created unscheduled, the loaded cache shared. -/
def initSys (data : List Row) (c : Cache) : SysState :=
  ⟨data.map (fun r => (r, .pending)), c⟩

/-- States one validation run can pass through. -/
def Reachable (session : Net) (limit : Nat) (data : List Row) (c0 : Cache)
    (s : SysState) : Prop :=
  Relation.ReflTransGen (Step session limit) (initSys data c0) s

theorem probesOutstanding_middle (pre post : List (Row × TStat)) (x : Row × TStat) :
    probesOutstanding (pre ++ x :: post) =
      probesOutstanding pre + (if isProbing x then 1 else 0) + probesOutstanding post := by
  simp [probesOutstanding, List.countP_append, List.countP_cons]
  omega

theorem startStat_not_probing (row : Row) (c : Cache) :
    isProbing (row, startStat row c) = false := by
  rw [startStat]
  by_cases h : urlOf row = ""
  · simp [h, isProbing]
  · simp only [h, if_false]
    cases alookup c (urlOf row) <;> simp [isProbing]

theorem probesOutstanding_init (data : List Row) :
    probesOutstanding (data.map (fun r => (r, TStat.pending))) = 0 := by
  induction data with
  | nil => rfl
  | cons r rs ih => simp [probesOutstanding, List.countP_cons, isProbing] at ih ⊢

/-- C5: at no point during a validation run do the simultaneously
outstanding probes exceed the configured concurrency limit, however many
records are pending. -/
theorem concurrency_bound (session : Net) (limit : Nat) (data : List Row) (c0 : Cache)
    (s : SysState) (h : Reachable session limit data c0 s) :
    probesOutstanding s.tasks ≤ limit := by
  induction h with
  | refl =>
    have h0 : probesOutstanding (initSys data c0).tasks = 0 := probesOutstanding_init data
    omega
  | tail _ hstep ih =>
    cases hstep with
    | start pre post row c =>
      dsimp only at ih ⊢
      rw [probesOutstanding_middle] at ih ⊢
      rw [startStat_not_probing]
      simp only [show isProbing (row, TStat.pending) = false from rfl,
        Bool.false_eq_true, if_false] at ih
      simp only [Bool.false_eq_true, if_false]
      omega
    | acquire pre post row u c hlt =>
      dsimp only
      rw [probesOutstanding_middle] at hlt ⊢
      simp only [show isProbing (row, TStat.waiting u) = false from rfl,
        Bool.false_eq_true, if_false] at hlt
      simp only [show isProbing (row, TStat.inflight u) = true from rfl,
        eq_self_iff_true, if_true]
      omega
    | complete pre post row u c =>
      dsimp only at ih ⊢
      rw [probesOutstanding_middle] at ih ⊢
      simp only [show isProbing (row, TStat.inflight u) = true from rfl,
        eq_self_iff_true, if_true] at ih
      simp only [show isProbing (row, TStat.done
        (verdictOf (session u checkTimeout))) = false from rfl,
        Bool.false_eq_true, if_false]
      omega

/-- Witness for C5: the initial state of a run (with the default limit
of 50) is reachable and has no outstanding probe. -/
theorem concurrency_bound_witness :
    probesOutstanding (initSys [] []).tasks ≤ 50 :=
  concurrency_bound (fun _ _ => ProbeResult.timeout) 50 [] []
    (initSys [] []) Relation.ReflTransGen.refl

/-- The cache invariant one validation run maintains: initially loaded
verdicts are still present, every stored verdict is either initial or
the verdict observed from the oracle for its URL, and a URL some task is
about to probe (or is probing) was not initially cached. -/
def CacheInv (session : Net) (c0 : Cache) (s : SysState) : Prop :=
  (∀ u b, alookup c0 u = some b → alookup s.cache u = some b) ∧
  (∀ u b, alookup s.cache u = some b →
    alookup c0 u = some b ∨ b = verdictOf (session u checkTimeout)) ∧
  (∀ row u, ((row, TStat.waiting u) ∈ s.tasks ∨ (row, TStat.inflight u) ∈ s.tasks) →
    alookup c0 u = none)

theorem cacheInv_init (session : Net) (data : List Row) (c0 : Cache) :
    CacheInv session c0 (initSys data c0) := by
  refine ⟨fun u b h => h, fun u b h => Or.inl h, ?_⟩
  intro row u hmem
  rcases hmem with hmem | hmem <;>
  · rcases List.mem_map.mp hmem with ⟨r, _, he⟩
    cases he

theorem startStat_waiting {row : Row} {c : Cache} {u : String}
    (h : startStat row c = .waiting u) : alookup c u = none := by
  rw [startStat] at h
  by_cases hurl : urlOf row = ""
  · simp [hurl] at h
  · simp only [hurl, if_false] at h
    cases hc : alookup c (urlOf row) with
    | some b => rw [hc] at h; cases h
    | none => rw [hc] at h; cases h; exact hc

theorem mem_of_mem_middle {x y : Row × TStat} {pre post : List (Row × TStat)}
    (h : x ∈ pre ++ y :: post) : x ∈ pre ∨ x = y ∨ x ∈ post := by
  rcases List.mem_append.mp h with h | h
  · exact Or.inl h
  · rcases List.mem_cons.mp h with h | h
    · exact Or.inr (Or.inl h)
    · exact Or.inr (Or.inr h)

theorem mem_middle_of_mem_side {x y : Row × TStat} {pre post : List (Row × TStat)}
    (h : x ∈ pre ∨ x ∈ post) : x ∈ pre ++ y :: post := by
  rcases h with h | h
  · exact List.mem_append_left _ h
  · exact List.mem_append_right _ (List.mem_cons_of_mem _ h)

theorem cacheInv_step {session : Net} {limit : Nat} {c0 : Cache} {s s' : SysState}
    (hinv : CacheInv session c0 s) (hstep : Step session limit s s') :
    CacheInv session c0 s' := by
  obtain ⟨h1, h2, h3⟩ := hinv
  cases hstep with
  | start pre post row c =>
    refine ⟨h1, h2, ?_⟩
    intro row' u hmem
    rcases hmem with hmem | hmem <;> rcases mem_of_mem_middle hmem with h | h | h
    · exact h3 row' u (Or.inl (mem_middle_of_mem_side (Or.inl h)))
    · have h' : TStat.waiting u = startStat row c := congrArg Prod.snd h
      have hc : alookup c u = none := startStat_waiting h'.symm
      cases hcc : alookup c0 u with
      | none => rfl
      | some b =>
        have hb := h1 u b hcc
        rw [hc] at hb
        cases hb
    · exact h3 row' u (Or.inl (mem_middle_of_mem_side (Or.inr h)))
    · exact h3 row' u (Or.inr (mem_middle_of_mem_side (Or.inl h)))
    · have h' : isProbing (row, startStat row c) = true := by
        rw [← h]
        rfl
      rw [startStat_not_probing] at h'
      cases h'
    · exact h3 row' u (Or.inr (mem_middle_of_mem_side (Or.inr h)))
  | acquire pre post row u c hlt =>
    refine ⟨h1, h2, ?_⟩
    intro row' u' hmem
    rcases hmem with hmem | hmem <;> rcases mem_of_mem_middle hmem with h | h | h
    · exact h3 row' u' (Or.inl (mem_middle_of_mem_side (Or.inl h)))
    · cases h
    · exact h3 row' u' (Or.inl (mem_middle_of_mem_side (Or.inr h)))
    · exact h3 row' u' (Or.inr (mem_middle_of_mem_side (Or.inl h)))
    · cases h
      exact h3 row u (Or.inl (List.mem_append_right _ (List.mem_cons_self _ _)))
    · exact h3 row' u' (Or.inr (mem_middle_of_mem_side (Or.inr h)))
  | complete pre post row u c =>
    have hc0u : alookup c0 u = none :=
      h3 row u (Or.inr (List.mem_append_right _ (List.mem_cons_self _ _)))
    refine ⟨?_, ?_, ?_⟩
    · intro u' b hb
      have hne : u ≠ u' := by
        intro he
        rw [← he, hc0u] at hb
        cases hb
      rw [alookup_ainsert_ne c hne]
      exact h1 u' b hb
    · intro u' b hb
      rcases eq_or_ne u u' with rfl | hne
      · rw [alookup_ainsert_self] at hb
        cases hb
        exact Or.inr rfl
      · rw [alookup_ainsert_ne c hne] at hb
        exact h2 u' b hb
    · intro row' u' hmem
      rcases hmem with hmem | hmem <;> rcases mem_of_mem_middle hmem with h | h | h
      · exact h3 row' u' (Or.inl (mem_middle_of_mem_side (Or.inl h)))
      · cases h
      · exact h3 row' u' (Or.inl (mem_middle_of_mem_side (Or.inr h)))
      · exact h3 row' u' (Or.inr (mem_middle_of_mem_side (Or.inl h)))
      · cases h
      · exact h3 row' u' (Or.inr (mem_middle_of_mem_side (Or.inr h)))

theorem cacheInv_rtg {session : Net} {limit : Nat} {c0 : Cache} {s s' : SysState}
    (hinv : CacheInv session c0 s)
    (hsteps : Relation.ReflTransGen (Step session limit) s s') :
    CacheInv session c0 s' := by
  induction hsteps with
  | refl => exact hinv
  | tail _ hstep ih => exact cacheInv_step ih hstep

theorem cache_persist_step {session : Net} {limit : Nat} {c0 : Cache} {s s' : SysState}
    (hinv : CacheInv session c0 s) (hstep : Step session limit s s')
    {u : String} {b : Bool} (hb : alookup s.cache u = some b) :
    alookup s'.cache u = some b := by
  cases hstep with
  | start pre post row c => exact hb
  | acquire pre post row u' c hlt => exact hb
  | complete pre post row u' c =>
    rcases eq_or_ne u' u with rfl | hne
    · have hc0 : alookup c0 u' = none :=
        hinv.2.2 row u' (Or.inr (List.mem_append_right _ (List.mem_cons_self _ _)))
      rcases hinv.2.1 u' b hb with h | h
      · rw [hc0] at h; cases h
      · rw [alookup_ainsert_self, h]
    · rw [alookup_ainsert_ne c hne]
      exact hb

/-- C6: within one run the cache is append-only at the level of
verdicts — once a verdict is recorded for a URL, every later state of
the run (including across concurrent checks of records sharing that
URL) still maps the URL to that same verdict — and every recorded
verdict is either one loaded at start or exactly the probe outcome the
oracle yields for that URL, never a guess. -/
theorem cache_append_only (session : Net) (limit : Nat) (data : List Row) (c0 : Cache)
    (s s' : SysState) (u : String) (b : Bool)
    (hreach : Reachable session limit data c0 s)
    (hsteps : Relation.ReflTransGen (Step session limit) s s')
    (hb : alookup s.cache u = some b) :
    alookup s'.cache u = some b ∧
    (alookup c0 u = some b ∨ b = verdictOf (session u checkTimeout)) := by
  have hinv : CacheInv session c0 s := cacheInv_rtg (cacheInv_init session data c0) hreach
  refine ⟨?_, hinv.2.1 u b hb⟩
  clear hreach
  induction hsteps with
  | refl => exact hb
  | tail hsteps' hstep ih =>
    exact cache_persist_step (cacheInv_rtg hinv hsteps') hstep ih

/-- Witness for C6: a verdict pre-seeded in the cache at the start of a
run is still there (and is an initial verdict) at the initial state. -/
theorem cache_append_only_witness :
    alookup (initSys [] [("u", true)]).cache "u" = some true ∧
    (alookup [("u", true)] "u" = some true ∨
      true = verdictOf ((fun _ _ => ProbeResult.timeout) "u" checkTimeout)) :=
  cache_append_only (fun _ _ => ProbeResult.timeout) 50 [] [("u", true)]
    (initSys [] [("u", true)]) (initSys [] [("u", true)]) "u" true
    Relation.ReflTransGen.refl Relation.ReflTransGen.refl (by decide)

end DownloadSets
